import Mathlib

/-!
# Verification of the `sarfile` archive core

A shallow embedding of the `sarfile` package (files `_header.py`, `_item.py`,
`_sarfile.py`, `_constants.py`) together with proofs of the specified
properties.

Conventions of the embedding:

* A byte string is a `List Nat` (each element a byte value `< 256`; the
  encoder only ever produces values `< 256` because it emits `n % 256` digits).
* Python `str` names are modelled by their UTF-8 byte encodings
  (`List Nat`): `str.encode("utf-8")` / `bytes.decode("utf-8")` at the
  codec boundary are the identity on this representation, since Python's
  UTF-8 codec is a bijection between strings and their encodings.  Names
  containing non-ASCII text are simply byte lists with bytes `≥ 0x80`.
* Python `struct.pack`/`struct.unpack` failures (value out of range for the
  chosen width, buffer too short) and `raise`d exceptions are modelled by
  `Except String` / `Option` results.
* File positions are `Nat`; seek offsets are `Int` (Python ints that may be
  negative).
-/

namespace Sarfile

/-- `MAGIC = b"SAR\n"` from `_constants.py`. -/
def MAGIC : List Nat := [83, 65, 82, 10]

/-- `PRE_HEADER_SIZE = len(MAGIC) + 8` from `_constants.py`. -/
def PRE_HEADER_SIZE : Nat := MAGIC.length + 8

/-- Little-endian digits of `n` in `w` bytes, i.e. the byte string produced by
`struct.pack` at width `w` (for an in-range value). -/
def leBytes : Nat → Nat → List Nat
  | 0, _ => []
  | w + 1, n => n % 256 :: leBytes w (n / 256)

/-- The value read back from a little-endian byte string, i.e. `struct.unpack`
of one integer. -/
def leVal (bs : List Nat) : Nat :=
  bs.foldr (fun b acc => b + 256 * acc) 0

/-- `struct.pack` of a single integer of width `w`: fails (struct.error) when
the value does not fit. -/
def packInt (w n : Nat) : Except String (List Nat) :=
  if n < 256 ^ w then .ok (leBytes w n) else .error "struct.error: argument out of range"

/-- `struct.pack(f"<{k}{dtype}", *vals)`: every value must fit in the width. -/
def packInts (w : Nat) (vals : List Nat) : Except String (List Nat) :=
  if vals.all (fun n => n < 256 ^ w) then .ok (vals.flatMap (leBytes w))
  else .error "struct.error: argument out of range"

/-- `struct.unpack(f"<{k}{dtype}", buf)` on a buffer of exactly `k * w` bytes:
splits the buffer into `k` chunks of `w` bytes and reads each back. -/
def unpackInts (w : Nat) : Nat → List Nat → List Nat
  | 0, _ => []
  | k + 1, bs => leVal (bs.take w) :: unpackInts w k (bs.drop w)

/-- Python `max` over a list of naturals (the caller guarantees the list is
non-empty, as `max([])` raises). -/
def maxList (l : List Nat) : Nat := l.foldl max 0

/-- `get_byte_enc_and_dtype` from `Header.encode` (`_header.py`): the byte
width chosen for a column whose maximum value is `n`.  (The struct dtype
character carries the same information as the width, so only the width is
kept.) -/
def get_byte_enc (n : Nat) : Nat :=
  if n < 2 ^ 8 then 1
  else if n < 2 ^ 16 then 2
  else if n < 2 ^ 32 then 4
  else 8

/-- `get_dtype_from_int` from `Header.decode` (`_header.py`): validates a
width-selector byte, failing with `ValueError` unless it is 1, 2, 4 or 8. -/
def get_dtype_from_int (n : Nat) : Except String Nat :=
  if n = 1 then .ok 1
  else if n = 2 then .ok 2
  else if n = 4 then .ok 4
  else if n = 8 then .ok 8
  else .error "Invalid dtype int"

/-- `itertools.accumulate(xs, initial=a)`: the running sums, starting with
`a` itself (so the result has one more element than `xs`). -/
def accumulate (a : Nat) : List Nat → List Nat
  | [] => [a]
  | x :: xs => a :: accumulate (a + x) xs

/-- The `Header` dataclass from `_header.py`.  `files` is the ordered list of
(name, byte length) pairs, names being UTF-8 byte strings; `init_offset`
defaults to 0 and is only set when sharding. -/
structure Header where
  files : List (List Nat × Nat)
  init_offset : Nat := 0
deriving DecidableEq, Repr

namespace Header

/-- `Header.encode` from `_header.py`: 1 width byte for the file-length
column, 1 width byte for the name-length column, an 8-byte count, the two
fixed-width little-endian integer arrays, then the concatenated name bytes.
`max` of an empty column raises `ValueError`; each `struct.pack` raises
`struct.error` on an out-of-range value. -/
def encode (h : Header) : Except String (List Nat) :=
  let file_lengths := h.files.map (fun f => f.2)
  let names_bytes := h.files.map (fun f => f.1)
  let names_bytes_lengths := names_bytes.map List.length
  if h.files.isEmpty then .error "max() arg is an empty sequence"
  else
    let flw := get_byte_enc (maxList file_lengths)
    let nlw := get_byte_enc (maxList names_bytes_lengths)
    match packInt 8 h.files.length with
    | .error e => .error e
    | .ok countB =>
      match packInts flw file_lengths with
      | .error e => .error e
      | .ok flB =>
        match packInts nlw names_bytes_lengths with
        | .error e => .error e
        | .ok nlB =>
          .ok (flw :: nlw :: (countB ++ flB ++ nlB ++ names_bytes.flatten))

/-- The names extraction loop of `Header.decode`: for each recorded name
length, slice that many bytes off the front (Python slicing clamps at the
end of the buffer) and keep the rest. -/
def extractNames : List Nat → List Nat → List (List Nat) × List Nat
  | [], b => ([], b)
  | len :: lens, b =>
    let r := extractNames lens (b.drop len)
    ((b.take len) :: r.1, r.2)

/-- `Header.decode` from `_header.py`.  Reads the two width-selector bytes
(`struct.error` when fewer than two bytes), validates them, reads the 8-byte
count, unpacks both integer arrays (`struct.error` when the buffer is too
short), slices out the names, and finally asserts that no bytes are left
over. -/
def decode (b : List Nat) : Except String Header :=
  match b with
  | flwB :: nlwB :: rest =>
    match get_dtype_from_int flwB with
    | .error e => .error e
    | .ok flw =>
      match get_dtype_from_int nlwB with
      | .error e => .error e
      | .ok nlw =>
        if rest.length < 8 then .error "struct.error: unpack requires a buffer of 8 bytes"
        else
          let num_files := leVal (rest.take 8)
          let b1 := rest.drop 8
          let fl_bytes := num_files * flw
          if b1.length < fl_bytes then .error "struct.error: unpack requires a larger buffer"
          else
            let file_lengths := unpackInts flw num_files (b1.take fl_bytes)
            let b2 := b1.drop fl_bytes
            let nl_bytes := num_files * nlw
            if b2.length < nl_bytes then .error "struct.error: unpack requires a larger buffer"
            else
              let names_bytes_lengths := unpackInts nlw num_files (b2.take nl_bytes)
              let b3 := b2.drop nl_bytes
              let r := extractNames names_bytes_lengths b3
              if r.2.isEmpty then .ok ⟨r.1.zip file_lengths, 0⟩
              else .error "Bytes left over"
  | _ => .error "struct.error: unpack requires a buffer of 2 bytes"

/-- `Header.write` from `_header.py`: an 8-byte length prefix followed by the
encoded header (the byte string this writes to the output stream). -/
def write (h : Header) : Except String (List Nat) :=
  match h.encode with
  | .error e => .error e
  | .ok enc =>
    match packInt 8 enc.length with
    | .error e => .error e
    | .ok lenB => .ok (lenB ++ enc)

/-- `Header.shard` from `_header.py`: the contiguous block of
`ceil(N / total_shards)` members selected by `shard_id`, with `init_offset`
raised by the total length of the members dropped from the front. -/
def shard (h : Header) (shard_id total_shards : Nat) : Header :=
  let num_files := h.files.length
  let num_files_per_shard := (num_files + total_shards - 1) / total_shards
  let start := shard_id * num_files_per_shard
  let stop := min ((shard_id + 1) * num_files_per_shard) num_files
  let shard_offset := ((h.files.take start).map (fun f => f.2)).sum
  ⟨(h.files.drop start).take (stop - start), h.init_offset + shard_offset⟩

/-- `Header._offsets` from `_header.py`: the running sums of the member
lengths (via `itertools.accumulate` with `initial=0`, hence one entry more
than there are members), each shifted by `header_size + init_offset`. -/
def _offsets (h : Header) (header_size : Nat) : List Nat :=
  (accumulate 0 (h.files.map (fun f => f.2))).map
    (fun offset => offset + header_size + h.init_offset)

end Header

/-- The already-open underlying binary stream a `TarItem` wraps: the whole
archive's bytes plus the current read position.  (Python allows the position
to sit beyond the end of the data; reads there return nothing.) -/
structure FileHandle where
  data : List Nat
  pos : Nat
deriving DecidableEq, Repr

namespace FileHandle

/-- `tell()` of the underlying stream. -/
def tell (fp : FileHandle) : Nat := fp.pos

/-- `read(n)` of the underlying stream: `n < 0` reads everything remaining;
otherwise up to `n` bytes are read (fewer when the stream runs out). -/
def read (fp : FileHandle) (n : Int) : List Nat × FileHandle :=
  if n < 0 then
    (fp.data.drop fp.pos, ⟨fp.data, fp.pos + (fp.data.length - fp.pos)⟩)
  else
    let k := min n.toNat (fp.data.length - fp.pos)
    ((fp.data.drop fp.pos).take k, ⟨fp.data, fp.pos + k⟩)

/-- `seek(offset, whence)` of the underlying stream: the new absolute
position is `offset` from the start (`whence = 0`), from the current
position (`whence = 1`), or from the end of the data (`whence = 2`); a
negative result raises `OSError`.  Returns the stream and the new position
(Python's `seek` returns the new absolute position). -/
def seek (fp : FileHandle) (offset : Int) (whence : Nat) : Option (FileHandle × Nat) :=
  let target : Int :=
    match whence with
    | 0 => offset
    | 1 => (fp.pos : Int) + offset
    | 2 => (fp.data.length : Int) + offset
    | _ => 0
  if 2 < whence then none
  else if target < 0 then none
  else some (⟨fp.data, target.toNat⟩, target.toNat)

end FileHandle

/-- `TarItem` from `_item.py`: a bounded read-only view of one member, over
the byte range `[start, start + num_bytes)` of the underlying stream.
`start` is the stream position at construction time (`self._start =
fp.tell()`). -/
structure TarItem where
  name : List Nat
  num_bytes : Nat
  start : Nat
  fp : FileHandle
deriving DecidableEq, Repr

namespace TarItem

/-- `TarItem.__init__`: records the wrapped stream's current position as the
view's start. -/
def make (name : List Nat) (num_bytes : Nat) (fp : FileHandle) : TarItem :=
  ⟨name, num_bytes, fp.pos, fp⟩

/-- `self._end = self._start + num_bytes`. -/
def endPos (it : TarItem) : Nat := it.start + it.num_bytes

/-- `TarItem.read` from `_item.py`: a negative `n` reads up to `self._end`;
otherwise a read that would cross `self._end` raises `ValueError`, and an
in-range read is forwarded to the underlying stream. -/
def read (it : TarItem) (n : Int) : Option (List Nat × TarItem) :=
  if n < 0 then
    let r := it.fp.read ((it.endPos : Int) - it.fp.tell)
    some (r.1, { it with fp := r.2 })
  else if (it.endPos : Int) < (it.fp.tell : Int) + n then none
  else
    let r := it.fp.read n
    some (r.1, { it with fp := r.2 })

/-- `TarItem.seek` from `_item.py`.  Note that the `whence = 2` branch
computes the absolute target `self._start + self._num_bytes + offset` but
forwards it to the underlying stream still with `whence = 2`, so the
underlying stream adds it to the end of the *whole archive*. -/
def seek (it : TarItem) (offset : Int) (whence : Nat) : Option (TarItem × Nat) :=
  match whence with
  | 0 =>
    if offset < 0 then none
    else if (it.num_bytes : Int) ≤ offset then none
    else (it.fp.seek ((it.start : Int) + offset) 0).map
      (fun r => ({ it with fp := r.1 }, r.2))
  | 1 =>
    if offset < 0 then none
    else if (it.endPos : Int) ≤ (it.fp.tell : Int) + offset then none
    else (it.fp.seek offset 1).map
      (fun r => ({ it with fp := r.1 }, r.2))
  | 2 =>
    if 0 < offset then none
    else if (it.fp.tell : Int) + offset < (it.start : Int) then none
    else (it.fp.seek ((it.start : Int) + it.num_bytes + offset) 2).map
      (fun r => ({ it with fp := r.1 }, r.2))
  | _ => none

/-- `TarItem.tell`: the underlying stream's absolute position minus the
view's start offset. -/
def tell (it : TarItem) : Int := (it.fp.tell : Int) - it.start

end TarItem

/-- The `sarfile` handle from `_sarfile.py`: the archive bytes, the decoded
header and the member offset table computed at open time. -/
structure SarFile where
  data : List Nat
  header : Header
  offsets : List Nat
deriving DecidableEq, Repr

namespace SarFile

/-- `sarfile.__init__` / `sarfile._read_header` / `sarfile.open` from
`_sarfile.py`: read `PRE_HEADER_SIZE` bytes, check the magic (raising
`IOError` otherwise), unpack the declared header length, read and decode the
header, and compute the offsets from `PRE_HEADER_SIZE + header_num_bytes`. -/
def openSar (data : List Nat) : Except String SarFile :=
  let init_bytes := data.take PRE_HEADER_SIZE
  if init_bytes.take MAGIC.length ≠ MAGIC then
    .error "Invalid magic number; this is not a sarfile."
  else if (init_bytes.drop MAGIC.length).length ≠ 8 then
    .error "struct.error: unpack requires a buffer of 8 bytes"
  else
    let header_num_bytes := leVal (init_bytes.drop MAGIC.length)
    let header_bytes := (data.drop PRE_HEADER_SIZE).take header_num_bytes
    match Header.decode header_bytes with
    | .error e => .error e
    | .ok header =>
      .ok ⟨data, header, header._offsets (PRE_HEADER_SIZE + header_num_bytes)⟩

/-- `sarfile.names`: the ordered member names. -/
def names (s : SarFile) : List (List Nat) := s.header.files.map (fun f => f.1)

/-- `sarfile.__len__`. -/
def size (s : SarFile) : Nat := s.header.files.length

end SarFile

/-- `sarfile.name_index`, the dict comprehension
`{name: i for i, name in enumerate(names)}`: built by iterating in order, so
a repeated name keeps its *last* index; lookup of an absent name fails
(`KeyError`). -/
def nameIndex (names : List (List Nat)) (n : List Nat) : Option Nat :=
  (names.foldl
    (fun (acc : Option Nat × Nat) name =>
      (if name = n then some acc.2 else acc.1, acc.2 + 1))
    (none, 0)).1

namespace SarFile

/-- `sarfile.__getitem__` with a string key: resolve the name to an index,
seek the (freshly opened) stream to that member's offset and wrap it in a
`TarItem`. -/
def getByName (s : SarFile) (n : List Nat) : Option TarItem :=
  match nameIndex s.names n with
  | none => none
  | some index =>
    match s.header.files[index]?, s.offsets[index]? with
    | some f, some off => some (TarItem.make f.1 f.2 ⟨s.data, off⟩)
    | _, _ => none

end SarFile

/-- The packing core of `sarfile.pack_files` (`_sarfile.py`, from the
`files_with_sizes` check onwards), parameterised over the qualifying member
list that the out-of-scope file-discovery collaborators
(`get_files_to_pack` / `get_file_sizes`) produce; each member carries its
name and its content bytes, and its recorded size is the content's length.
The result records whether the output file was opened (created) at all, the
bytes written to it, and the error raised, if any: an empty qualifying list
raises `ValueError("No files to pack.")` *before* the output is opened. -/
def packFilesRun (files : List (List Nat × List Nat)) :
    Bool × List Nat × Option String :=
  if files.isEmpty then (false, [], some "No files to pack.")
  else
    match Header.write ⟨files.map (fun f => (f.1, f.2.length)), 0⟩ with
    | .error e => (true, MAGIC, some e)
    | .ok hw => (true, MAGIC ++ hw ++ (files.map (fun f => f.2)).flatten, none)

/-- `sarfile.pack_files` viewed as producing the full output byte string (or
failing). -/
def packFiles (files : List (List Nat × List Nat)) : Except String (List Nat) :=
  match packFilesRun files with
  | (_, bytes, none) => .ok bytes
  | (_, _, some e) => .error e

/-- The packing core of `sarfile.pack_tar` (`_sarfile.py`), parameterised
over the tar's members as (name, content) pairs (a member's recorded size is
its content's length).  The output file is opened by the `with` statement
*before* anything else, zero-sized members are filtered out, and the magic
bytes are written before `header.write` runs the encoder — so when the
qualifying list is empty the encoder's `max()` raises only after the magic
is already in the output file. -/
def packTarRun (members : List (List Nat × List Nat)) :
    Bool × List Nat × Option String :=
  let files_with_sizes := (members.map (fun m => (m.1, m.2.length))).filter
    (fun i => 0 < i.2)
  match Header.write ⟨files_with_sizes, 0⟩ with
  | .error e => (true, MAGIC, some e)
  | .ok hw =>
    (true,
      MAGIC ++ hw ++ ((members.filter (fun m => 0 < m.2.length)).map (fun f => f.2)).flatten,
      none)

/-! ## Helper lemmas about the integer codec -/

theorem leBytes_length (w n : Nat) : (leBytes w n).length = w := by
  induction w generalizing n with
  | zero => rfl
  | succ w ih => simp [leBytes, ih]

theorem leVal_nil : leVal [] = 0 := rfl

theorem leVal_cons (b : Nat) (bs : List Nat) : leVal (b :: bs) = b + 256 * leVal bs := rfl

theorem leVal_leBytes {w n : Nat} (h : n < 256 ^ w) : leVal (leBytes w n) = n := by
  induction w generalizing n with
  | zero =>
    have hn : n = 0 := by simpa using h
    subst hn; rfl
  | succ w ih =>
    have h2 : n / 256 < 256 ^ w := by
      have hlt : n < 256 ^ w * 256 := by
        calc n < 256 ^ (w + 1) := h
        _ = 256 ^ w * 256 := by rw [pow_succ]
      exact Nat.div_lt_of_lt_mul (by rw [Nat.mul_comm]; exact hlt)
    rw [leBytes, leVal_cons, ih h2, Nat.mod_add_div]

theorem le_foldl_max (l : List Nat) (a : Nat) : a ≤ l.foldl max a := by
  induction l generalizing a with
  | nil => exact le_refl a
  | cons x xs ih => exact le_trans (le_max_left a x) (ih (max a x))

theorem le_maxList {l : List Nat} {x : Nat} (hx : x ∈ l) : x ≤ maxList l := by
  unfold maxList
  generalize 0 = a
  induction l generalizing a with
  | nil => cases hx
  | cons y ys ih =>
    rcases List.mem_cons.mp hx with h | h
    · subst h
      exact le_trans (le_max_right a x) (le_foldl_max ys (max a x))
    · exact ih h (max a y)

theorem maxList_lt {l : List Nat} {B : Nat} (hB : 0 < B) (h : ∀ x ∈ l, x < B) :
    maxList l < B := by
  unfold maxList
  have aux : ∀ (l : List Nat) (a : Nat), a < B → (∀ x ∈ l, x < B) → l.foldl max a < B := by
    intro l
    induction l with
    | nil => intro a ha _; exact ha
    | cons y ys ih =>
      intro a ha hall
      exact ih (max a y) (max_lt ha (hall y (List.mem_cons_self y ys))) fun x hx =>
        hall x (List.mem_cons_of_mem y hx)
  exact aux l 0 hB h

theorem get_dtype_from_int_get_byte_enc (n : Nat) :
    get_dtype_from_int (get_byte_enc n) = .ok (get_byte_enc n) := by
  unfold get_byte_enc
  split
  · rfl
  split
  · rfl
  split
  · rfl
  · rfl

theorem get_byte_enc_mem (n : Nat) :
    get_byte_enc n = 1 ∨ get_byte_enc n = 2 ∨ get_byte_enc n = 4 ∨ get_byte_enc n = 8 := by
  unfold get_byte_enc
  split
  · exact Or.inl rfl
  split
  · exact Or.inr (Or.inl rfl)
  split
  · exact Or.inr (Or.inr (Or.inl rfl))
  · exact Or.inr (Or.inr (Or.inr rfl))

theorem lt_pow_get_byte_enc {n : Nat} (h : n < 2 ^ 64) : n < 256 ^ get_byte_enc n := by
  unfold get_byte_enc
  split
  · next h1 => calc n < 2 ^ 8 := h1
               _ ≤ 256 ^ 1 := by norm_num
  split
  · next h2 => calc n < 2 ^ 16 := h2
               _ ≤ 256 ^ 2 := by norm_num
  split
  · next h3 => calc n < 2 ^ 32 := h3
               _ ≤ 256 ^ 4 := by norm_num
  · calc n < 2 ^ 64 := h
      _ ≤ 256 ^ 8 := by norm_num

theorem packInt_ok {w n : Nat} (h : n < 256 ^ w) : packInt w n = .ok (leBytes w n) := by
  simp [packInt, h]

theorem packInts_ok {w : Nat} {vals : List Nat} (h : ∀ x ∈ vals, x < 256 ^ w) :
    packInts w vals = .ok (vals.flatMap (leBytes w)) := by
  unfold packInts
  rw [if_pos]
  simp only [List.all_eq_true, decide_eq_true_eq]
  exact h

theorem take_append_length {α : Type} {p : List α} (q : List α) {w : Nat}
    (hw : p.length = w) : (p ++ q).take w = p := by
  subst hw; exact List.take_left p q

theorem drop_append_length {α : Type} {p : List α} (q : List α) {w : Nat}
    (hw : p.length = w) : (p ++ q).drop w = q := by
  subst hw; exact List.drop_left p q

theorem flatMap_leBytes_length (w : Nat) (vals : List Nat) :
    (vals.flatMap (leBytes w)).length = vals.length * w := by
  induction vals with
  | nil => simp
  | cons x xs ih =>
    rw [List.flatMap_cons, List.length_append, leBytes_length, ih, List.length_cons]
    ring

theorem unpackInts_flatMap {w : Nat} {vals : List Nat} (h : ∀ x ∈ vals, x < 256 ^ w) :
    unpackInts w vals.length (vals.flatMap (leBytes w)) = vals := by
  induction vals with
  | nil => rfl
  | cons x xs ih =>
    rw [List.flatMap_cons, List.length_cons]
    show unpackInts w (xs.length + 1) _ = _
    rw [unpackInts]
    rw [take_append_length _ (leBytes_length w x), drop_append_length _ (leBytes_length w x),
      leVal_leBytes (h x (List.mem_cons_self x xs)),
      ih fun y hy => h y (List.mem_cons_of_mem x hy)]

theorem extractNames_flatten (ns : List (List Nat)) (r : List Nat) :
    Header.extractNames (ns.map List.length) (ns.flatten ++ r) = (ns, r) := by
  induction ns with
  | nil => simp [Header.extractNames]
  | cons n ns ih =>
    rw [List.map_cons, List.flatten_cons, List.append_assoc, Header.extractNames]
    rw [List.take_left, List.drop_left, ih]

theorem zip_map_fst_snd {α β : Type} (l : List (α × β)) :
    (l.map Prod.fst).zip (l.map Prod.snd) = l := by
  induction l with
  | nil => rfl
  | cons x xs ih => simp [ih]

/-- When the member count, the member lengths and the name byte lengths all
fit in 64 bits (as `struct.pack` requires), `Header.encode` succeeds. -/
theorem encode_isOk {h : Header} (hne : h.files ≠ [])
    (hcount : h.files.length < 2 ^ 64)
    (hlen : ∀ f ∈ h.files, f.2 < 2 ^ 64)
    (hname : ∀ f ∈ h.files, f.1.length < 2 ^ 64) :
    ∃ bytes, h.encode = .ok bytes := by
  have hflfit : ∀ x ∈ h.files.map (fun f => f.2),
      x < 256 ^ get_byte_enc (maxList (h.files.map (fun f => f.2))) := by
    intro x hx
    have hmax : maxList (h.files.map (fun f => f.2)) < 2 ^ 64 := by
      refine maxList_lt (by norm_num) ?_
      intro y hy
      obtain ⟨f, hf, hfy⟩ := List.mem_map.mp hy
      exact hfy ▸ hlen f hf
    exact lt_of_le_of_lt (le_maxList hx)
      (lt_pow_get_byte_enc hmax)
  have hnlfit : ∀ x ∈ (h.files.map (fun f => f.1)).map List.length,
      x < 256 ^ get_byte_enc (maxList ((h.files.map (fun f => f.1)).map List.length)) := by
    intro x hx
    have hmax : maxList ((h.files.map (fun f => f.1)).map List.length) < 2 ^ 64 := by
      refine maxList_lt (by norm_num) ?_
      intro y hy
      obtain ⟨nb, hnb, hny⟩ := List.mem_map.mp hy
      obtain ⟨f, hf, hfn⟩ := List.mem_map.mp hnb
      exact hny ▸ hfn ▸ hname f hf
    exact lt_of_le_of_lt (le_maxList hx) (lt_pow_get_byte_enc hmax)
  unfold Header.encode
  rw [if_neg (by simpa [List.isEmpty_iff] using hne)]
  dsimp only
  rw [packInt_ok (show h.files.length < 256 ^ 8 by norm_num at hcount ⊢; exact hcount)]
  rw [packInts_ok hflfit, packInts_ok hnlfit]
  exact ⟨_, rfl⟩

/-- Decoding an encoded header followed by any trailing bytes: with no
trailing bytes the member list comes back exactly (with `init_offset` reset
to 0); with trailing bytes left over, decoding fails. -/
theorem decode_encode_general {h : Header} {bytes : List Nat} (he : h.encode = .ok bytes)
    (extra : List Nat) :
    Header.decode (bytes ++ extra) =
      if extra.isEmpty then .ok ⟨h.files, 0⟩ else .error "Bytes left over" := by
  unfold Header.encode at he
  by_cases hemp : h.files.isEmpty
  · rw [if_pos hemp] at he; exact absurd he (by simp)
  rw [if_neg hemp] at he
  dsimp only at he
  set fl := h.files.map (fun f => f.2) with hfl
  set nbs := h.files.map (fun f => f.1) with hnbs
  set flw := get_byte_enc (maxList fl) with hflw
  set nlw := get_byte_enc (maxList (nbs.map List.length)) with hnlw
  rcases hc : packInt 8 h.files.length with e | countB
  · rw [hc] at he; exact absurd he (by simp)
  rw [hc] at he
  rcases hf : packInts flw fl with e | flB
  · rw [hf] at he; exact absurd he (by simp)
  rw [hf] at he
  rcases hn : packInts nlw (nbs.map List.length) with e | nlB
  · rw [hn] at he; exact absurd he (by simp)
  rw [hn] at he
  -- invert the three packs
  have hcinv : h.files.length < 256 ^ 8 ∧ countB = leBytes 8 h.files.length := by
    unfold packInt at hc
    split at hc
    · exact ⟨by assumption, by cases hc; rfl⟩
    · exact absurd hc (by simp)
  obtain ⟨hcount, hcountB⟩ := hcinv
  have hfinv : (∀ x ∈ fl, x < 256 ^ flw) ∧ flB = fl.flatMap (leBytes flw) := by
    unfold packInts at hf
    split at hf
    · rename_i hfit
      refine ⟨?_, by cases hf; rfl⟩
      intro x hx
      exact of_decide_eq_true (List.all_eq_true.mp hfit x hx)
    · exact absurd hf (by simp)
  obtain ⟨hflfit', hflB⟩ := hfinv
  have hninv : (∀ x ∈ nbs.map List.length, x < 256 ^ nlw) ∧
      nlB = (nbs.map List.length).flatMap (leBytes nlw) := by
    unfold packInts at hn
    split at hn
    · rename_i hfit
      refine ⟨?_, by cases hn; rfl⟩
      intro x hx
      exact of_decide_eq_true (List.all_eq_true.mp hfit x hx)
    · exact absurd hn (by simp)
  obtain ⟨hnlfit', hnlB⟩ := hninv
  have hbytes : bytes = flw :: nlw :: (countB ++ flB ++ nlB ++ nbs.flatten) := by
    cases he; rfl
  subst hbytes hcountB hflB hnlB
  -- now evaluate decode on the assembled byte string
  rw [List.cons_append, List.cons_append, Header.decode]
  rw [get_dtype_from_int_get_byte_enc, get_dtype_from_int_get_byte_enc]
  simp only [← hflw, ← hnlw, List.append_assoc]
  set rest := leBytes 8 h.files.length ++
    (fl.flatMap (leBytes flw) ++ ((nbs.map List.length).flatMap (leBytes nlw) ++
      (nbs.flatten ++ extra)))
    with hrest
  have hrest8 : ¬ rest.length < 8 := by
    rw [hrest]
    simp [leBytes_length]
  rw [if_neg hrest8]
  have htake8 : rest.take 8 = leBytes 8 h.files.length :=
    take_append_length _ (leBytes_length 8 h.files.length)
  have hdrop8 : rest.drop 8 =
      fl.flatMap (leBytes flw) ++ ((nbs.map List.length).flatMap (leBytes nlw) ++
        (nbs.flatten ++ extra)) :=
    drop_append_length _ (leBytes_length 8 h.files.length)
  rw [htake8, hdrop8, leVal_leBytes hcount]
  have hflBlen : (fl.flatMap (leBytes flw)).length = h.files.length * flw := by
    rw [flatMap_leBytes_length, hfl, List.length_map]
  have hnotlt1 : ¬ (fl.flatMap (leBytes flw) ++
      ((nbs.map List.length).flatMap (leBytes nlw) ++ (nbs.flatten ++ extra))).length <
      h.files.length * flw := by
    rw [List.length_append, hflBlen]; omega
  rw [if_neg hnotlt1]
  rw [take_append_length _ hflBlen, drop_append_length _ hflBlen]
  have hunpackfl : unpackInts flw h.files.length (fl.flatMap (leBytes flw)) = fl := by
    have := unpackInts_flatMap hflfit'
    rwa [hfl, List.length_map] at this
  rw [hunpackfl]
  have hnlBlen : ((nbs.map List.length).flatMap (leBytes nlw)).length =
      h.files.length * nlw := by
    rw [flatMap_leBytes_length, List.length_map, hnbs, List.length_map]
  have hnotlt2 : ¬ ((nbs.map List.length).flatMap (leBytes nlw) ++
      (nbs.flatten ++ extra)).length <
      h.files.length * nlw := by
    rw [List.length_append, hnlBlen]; omega
  rw [if_neg hnotlt2]
  rw [take_append_length _ hnlBlen, drop_append_length _ hnlBlen]
  have hunpacknl : unpackInts nlw h.files.length ((nbs.map List.length).flatMap (leBytes nlw)) =
      nbs.map List.length := by
    have := unpackInts_flatMap hnlfit'
    rwa [List.length_map, hnbs, List.length_map] at this
  rw [hunpacknl]
  rw [extractNames_flatten nbs extra]
  dsimp only
  rw [hnbs, hfl, zip_map_fst_snd]

/-- Any byte string `Header.encode` produces decodes back to the same member
list, with `init_offset` reset to 0. -/
theorem decode_encode {h : Header} {bytes : List Nat} (he : h.encode = .ok bytes) :
    Header.decode bytes = .ok ⟨h.files, 0⟩ := by
  have hg := decode_encode_general he []
  rw [List.append_nil] at hg
  simpa using hg

/-! ## Helper lemmas about offsets and sharding -/

theorem accumulate_length (a : Nat) (l : List Nat) : (accumulate a l).length = l.length + 1 := by
  induction l generalizing a with
  | nil => rfl
  | cons x xs ih => simp [accumulate, ih]

theorem accumulate_getElem? {l : List Nat} {i : Nat} (a : Nat) (hi : i ≤ l.length) :
    (accumulate a l)[i]? = some (a + (l.take i).sum) := by
  induction l generalizing a i with
  | nil =>
    have : i = 0 := by simpa using hi
    subst this; rfl
  | cons x xs ih =>
    cases i with
    | zero => simp [accumulate]
    | succ j =>
      rw [accumulate]
      have hj : j ≤ xs.length := by simpa using hi
      simp only [List.getElem?_cons_succ, ih (a + x) hj, List.take_succ_cons, List.sum_cons]
      ring_nf

theorem offsets_length (h : Header) (S : Nat) :
    (h._offsets S).length = h.files.length + 1 := by
  simp [Header._offsets, accumulate_length]

theorem offsets_getElem? (h : Header) (S : Nat) {i : Nat} (hi : i ≤ h.files.length) :
    (h._offsets S)[i]? =
      some (((h.files.map (fun f => f.2)).take i).sum + S + h.init_offset) := by
  unfold Header._offsets
  rw [List.getElem?_map, accumulate_getElem? 0 (by simpa using hi)]
  simp

theorem take_min_length {α : Type} (l : List α) (k : Nat) :
    l.take (min k l.length) = l.take k := by
  rcases le_total k l.length with hk | hk
  · rw [min_eq_left hk]
  · rw [min_eq_right hk, List.take_of_length_le hk,
      List.take_of_length_le (le_refl _) ]

theorem drop_take_min {α : Type} (l : List α) (s k : Nat) :
    (l.drop s).take (min (s + k) l.length - s) = (l.drop s).take k := by
  rcases le_or_lt s l.length with hs | hs
  · have hmin : min (s + k) l.length - s = min k (l.length - s) := by
      rcases le_total (s + k) l.length with h1 | h1
      · rw [min_eq_left h1, min_eq_left (by omega)]
        omega
      · rw [min_eq_right h1, min_eq_right (by omega)]
    rw [hmin]
    have hlen : (l.drop s).length = l.length - s := by simp
    rw [← hlen, take_min_length]
  · have h2 : l.drop s = [] := List.drop_eq_nil_of_le (by omega)
    simp [h2]

/-- The shard's member block, written as a uniform `b`-sized slice. -/
theorem shard_files_eq (h : Header) (i t : Nat) :
    (h.shard i t).files =
      (h.files.drop (i * ((h.files.length + t - 1) / t))).take
        ((h.files.length + t - 1) / t) := by
  unfold Header.shard
  dsimp only
  rw [Nat.succ_mul]
  exact drop_take_min h.files _ _

theorem le_mul_ceilDiv {N t : Nat} (ht : 1 ≤ t) : N ≤ t * ((N + t - 1) / t) := by
  have h1 := Nat.div_add_mod (N + t - 1) t
  have h2 : (N + t - 1) % t < t := Nat.mod_lt _ (by omega)
  omega

theorem range_flatMap_slices {α : Type} (b : Nat) (t : Nat) (l : List α) :
    ((List.range t).map (fun i => (l.drop (i * b)).take b)).flatten = l.take (t * b) := by
  induction t generalizing l with
  | zero => simp
  | succ t ih =>
    rw [List.range_succ_eq_map, List.map_cons, List.flatten_cons, List.map_map]
    have hcong : (List.range t).map ((fun i => (l.drop (i * b)).take b) ∘ Nat.succ) =
        (List.range t).map (fun i => ((l.drop b).drop (i * b)).take b) := by
      apply List.map_congr_left
      intro i _
      simp only [Function.comp]
      rw [List.drop_drop]
      congr 2
      rw [Nat.succ_mul]
      ring
    rw [hcong, ih (l.drop b)]
    simp only [Nat.zero_mul, List.drop_zero]
    rw [← List.take_add]
    congr 1
    rw [Nat.succ_mul]
    ring

/-- Concatenating all shards' member lists, in shard-id order, restores the
original member list. -/
theorem shard_cover (h : Header) {t : Nat} (ht : 1 ≤ t) :
    ((List.range t).map (fun i => (h.shard i t).files)).flatten = h.files := by
  have hmap : (List.range t).map (fun i => (h.shard i t).files) =
      (List.range t).map
        (fun i => (h.files.drop (i * ((h.files.length + t - 1) / t))).take
          ((h.files.length + t - 1) / t)) := by
    apply List.map_congr_left
    intro i _
    exact shard_files_eq h i t
  rw [hmap, range_flatMap_slices]
  exact List.take_of_length_le (le_mul_ceilDiv ht)

theorem shard_files_length (h : Header) (i t : Nat) :
    (h.shard i t).files.length =
      min ((i + 1) * ((h.files.length + t - 1) / t)) h.files.length
        - i * ((h.files.length + t - 1) / t) := by
  unfold Header.shard
  dsimp only
  simp only [List.length_take, List.length_drop]
  omega

theorem shard_files_getElem? (h : Header) {i t j : Nat}
    (hj : j < (h.shard i t).files.length) :
    (h.shard i t).files[j]? = h.files[i * ((h.files.length + t - 1) / t) + j]? := by
  rw [shard_files_eq] at hj ⊢
  set b := (h.files.length + t - 1) / t
  have hjb : j < b := lt_of_lt_of_le hj (by simp [List.length_take])
  rw [List.getElem?_take_of_lt hjb, List.getElem?_drop]

theorem shard_init_offset (h : Header) (i t : Nat) :
    (h.shard i t).init_offset = h.init_offset +
      ((h.files.take (i * ((h.files.length + t - 1) / t))).map (fun f => f.2)).sum := rfl

/-- Offsets computed from a shard agree, member for member, with the offsets
computed from the unsharded header. -/
theorem shard_offsets_agree (h : Header) (S i t : Nat) {j : Nat}
    (hj : j < (h.shard i t).files.length) :
    ((h.shard i t)._offsets S)[j]? =
      (h._offsets S)[i * ((h.files.length + t - 1) / t) + j]? := by
  have hfe := shard_files_eq h i t
  set L := h.files.map (fun f => f.2) with hL
  set b := (h.files.length + t - 1) / t with hb
  set s := i * b with hs
  have hshlen : (h.shard i t).files.length = min b (h.files.length - s) := by
    rw [hfe]; simp
  have hjb : j < b := lt_of_lt_of_le (hshlen ▸ hj) (min_le_left _ _)
  have hjN : j < h.files.length - s := lt_of_lt_of_le (hshlen ▸ hj) (min_le_right _ _)
  have hsjN : s + j ≤ h.files.length := by omega
  rw [offsets_getElem? _ _ (le_of_lt hj), offsets_getElem? _ _ hsjN]
  congr 1
  have h1 : (h.shard i t).files.map (fun f => f.2) = (L.drop s).take b := by
    rw [hfe, List.map_take, List.map_drop, ← hL]
  rw [h1, List.take_take, min_eq_left (le_of_lt hjb), shard_init_offset, ← hb, ← hs,
    List.map_take, ← hL, List.take_add, List.sum_append]
  omega

/-! ## Helper lemmas about name lookup and data extraction -/

theorem nameIndexAux_not_mem (x : List Nat) (l : List (List Nat)) (opt : Option Nat) (k : Nat)
    (hx : x ∉ l) :
    (l.foldl (fun (acc : Option Nat × Nat) name =>
      (if name = x then some acc.2 else acc.1, acc.2 + 1)) (opt, k)).1 = opt := by
  induction l generalizing opt k with
  | nil => rfl
  | cons y ys ih =>
    have hyx : ¬ (y = x) := fun hh => hx (hh ▸ List.mem_cons_self y ys)
    simp only [List.foldl_cons, if_neg hyx]
    exact ih opt (k + 1) fun hh => hx (List.mem_cons_of_mem y hh)

theorem nameIndexAux_found (x : List Nat) :
    ∀ (l : List (List Nat)) (i : Nat) (opt : Option Nat) (k : Nat),
      l[i]? = some x → x ∉ l.drop (i + 1) →
      (l.foldl (fun (acc : Option Nat × Nat) name =>
        (if name = x then some acc.2 else acc.1, acc.2 + 1)) (opt, k)).1 = some (k + i) := by
  intro l
  induction l with
  | nil => intro i opt k hi _; simp at hi
  | cons y ys ih =>
    intro i opt k hi hrest
    cases i with
    | zero =>
      have hyx : y = x := by simpa using hi
      subst hyx
      have hys : y ∉ ys := by simpa using hrest
      simp only [List.foldl_cons, ite_true, eq_self_iff_true]
      rw [nameIndexAux_not_mem y ys (some k) (k + 1) hys, Nat.add_zero]
    | succ j =>
      have hj : ys[j]? = some x := by simpa using hi
      have hrest' : x ∉ ys.drop (j + 1) := by simpa using hrest
      simp only [List.foldl_cons]
      rw [ih j _ (k + 1) hj hrest']
      congr 1
      omega

/-- With duplicate-free names, `name_index` maps the name at position `i`
back to `i`. -/
theorem nameIndex_getElem? {l : List (List Nat)} {x : List Nat} {i : Nat}
    (hnd : l.Nodup) (hi : l[i]? = some x) : nameIndex l x = some i := by
  have hmem : x ∈ l.take (i + 1) := by
    refine List.mem_iff_getElem?.mpr ⟨i, ?_⟩
    rw [List.getElem?_take_of_lt (Nat.lt_succ_self i)]
    exact hi
  have hsplit : (l.take (i + 1) ++ l.drop (i + 1)).Nodup := by
    rw [List.take_append_drop]; exact hnd
  have hdrop : x ∉ l.drop (i + 1) := fun hx =>
    (List.nodup_append.mp hsplit).2.2 hmem hx
  unfold nameIndex
  rw [nameIndexAux_found x l i none 0 hi hdrop, Nat.zero_add]

/-- Slicing a member's range back out of the concatenation of all members'
bytes recovers exactly that member's bytes. -/
theorem flatten_drop_take {α : Type} :
    ∀ (cs : List (List α)) (i : Nat) (c : List α), cs[i]? = some c →
      (cs.flatten.drop (((cs.take i).map List.length).sum)).take c.length = c ∧
      ((cs.take i).map List.length).sum + c.length ≤ cs.flatten.length := by
  intro cs
  induction cs with
  | nil => intro i c hi; simp at hi
  | cons d ds ih =>
    intro i c hi
    cases i with
    | zero =>
      have hdc : d = c := by simpa using hi
      subst hdc
      constructor
      · simp only [List.take_zero, List.map_nil, List.sum_nil, List.drop_zero,
          List.flatten_cons]
        exact take_append_length _ rfl
      · simp [List.flatten_cons]
    | succ j =>
      have hj : ds[j]? = some c := by simpa using hi
      obtain ⟨ih1, ih2⟩ := ih j c hj
      rw [List.take_succ_cons, List.map_cons, List.sum_cons, List.flatten_cons]
      constructor
      · rw [← List.drop_drop, List.drop_left]
        exact ih1
      · rw [List.length_append]
        omega

/-! ## Packing and reopening -/

theorem packFiles_inv {files : List (List Nat × List Nat)} {archive : List Nat}
    (hp : packFiles files = .ok archive) :
    ∃ enc, Header.encode ⟨files.map (fun f => (f.1, f.2.length)), 0⟩ = .ok enc ∧
      enc.length < 256 ^ 8 ∧
      archive = MAGIC ++ (leBytes 8 enc.length ++
        (enc ++ (files.map (fun f => f.2)).flatten)) := by
  unfold packFiles packFilesRun at hp
  by_cases hemp : files.isEmpty
  · rw [if_pos hemp] at hp
    exact absurd hp (by simp)
  rw [if_neg hemp] at hp
  rcases hw : Header.write ⟨files.map (fun f => (f.1, f.2.length)), 0⟩ with e | hwb
  · rw [hw] at hp
    exact absurd hp (by simp)
  rw [hw] at hp
  have harch : archive = MAGIC ++ hwb ++ (files.map (fun f => f.2)).flatten :=
    (Except.ok.inj hp).symm
  unfold Header.write at hw
  rcases he : Header.encode ⟨files.map (fun f => (f.1, f.2.length)), 0⟩ with e | enc
  · rw [he] at hw
    exact absurd hw (by simp)
  rw [he] at hw
  dsimp only at hw
  rcases hpi : packInt 8 enc.length with e | lenB
  · rw [hpi] at hw
    exact absurd hw (by simp)
  rw [hpi] at hw
  unfold packInt at hpi
  split at hpi
  · rename_i hlen
    refine ⟨enc, he, hlen, ?_⟩
    have hlenB : lenB = leBytes 8 enc.length := (Except.ok.inj hpi).symm
    have hwb_eq : hwb = lenB ++ enc := (Except.ok.inj hw).symm
    rw [harch, hwb_eq, hlenB]
    simp [List.append_assoc]
  · exact absurd hpi (by simp)

theorem openSar_after_pack {files : List (List Nat × List Nat)} {archive enc : List Nat}
    (he : Header.encode ⟨files.map (fun f => (f.1, f.2.length)), 0⟩ = .ok enc)
    (hencLen : enc.length < 256 ^ 8)
    (harch : archive = MAGIC ++ (leBytes 8 enc.length ++
      (enc ++ (files.map (fun f => f.2)).flatten))) :
    SarFile.openSar archive = .ok
      ⟨archive, ⟨files.map (fun f => (f.1, f.2.length)), 0⟩,
        Header._offsets ⟨files.map (fun f => (f.1, f.2.length)), 0⟩
          (PRE_HEADER_SIZE + enc.length)⟩ := by
  have hA1 : archive = (MAGIC ++ leBytes 8 enc.length) ++
      (enc ++ (files.map (fun f => f.2)).flatten) := by
    rw [harch]; simp [List.append_assoc]
  have hlen12 : (MAGIC ++ leBytes 8 enc.length).length = PRE_HEADER_SIZE := by
    simp [MAGIC, PRE_HEADER_SIZE, leBytes_length]
  have h12 : archive.take PRE_HEADER_SIZE = MAGIC ++ leBytes 8 enc.length := by
    rw [hA1]; exact take_append_length _ hlen12
  have hdrop12 : archive.drop PRE_HEADER_SIZE =
      enc ++ (files.map (fun f => f.2)).flatten := by
    rw [hA1]; exact drop_append_length _ hlen12
  have hmagic : (archive.take PRE_HEADER_SIZE).take MAGIC.length = MAGIC := by
    rw [h12]; exact take_append_length _ rfl
  have htail : (archive.take PRE_HEADER_SIZE).drop MAGIC.length = leBytes 8 enc.length := by
    rw [h12]; exact drop_append_length _ rfl
  unfold SarFile.openSar
  dsimp only
  rw [if_neg (not_not_intro hmagic)]
  rw [htail]
  rw [if_neg (not_not_intro (leBytes_length 8 enc.length))]
  rw [leVal_leBytes hencLen, hdrop12, take_append_length _ rfl, decode_encode he]

/-- Packing a member list and reopening the archive: the member count, the
ordered names and every member's bytes survive. -/
theorem pack_open_spec {files : List (List Nat × List Nat)} {archive : List Nat}
    (hnd : (files.map (fun f => f.1)).Nodup)
    (hp : packFiles files = .ok archive) :
    ∃ s : SarFile, SarFile.openSar archive = .ok s ∧
      s.size = files.length ∧
      s.names = files.map (fun f => f.1) ∧
      ∀ nm ct, (nm, ct) ∈ files →
        ∃ it : TarItem, s.getByName nm = some it ∧
          (it.read (-1)).map (fun r => r.1) = some ct := by
  obtain ⟨enc, he, hencLen, harch⟩ := packFiles_inv hp
  refine ⟨_, openSar_after_pack he hencLen harch, ?_, ?_, ?_⟩
  · simp [SarFile.size]
  · simp [SarFile.names, List.map_map, Function.comp_def]
  intro nm ct hmem
  obtain ⟨i, hi⟩ := List.mem_iff_getElem?.mp hmem
  set hdrFiles := files.map (fun f => (f.1, f.2.length)) with hhdr
  set contents := files.map (fun f => f.2) with hcont
  have hiN : i < files.length := (List.getElem?_eq_some_iff.mp hi).1
  have hnames : (files.map (fun f => f.1))[i]? = some nm := by
    rw [List.getElem?_map, hi]; rfl
  have hsnames : (⟨archive, ⟨hdrFiles, 0⟩,
      Header._offsets ⟨hdrFiles, 0⟩ (PRE_HEADER_SIZE + enc.length)⟩ : SarFile).names =
      files.map (fun f => f.1) := by
    simp [SarFile.names, hhdr, List.map_map, Function.comp_def]
  have hni : nameIndex (files.map (fun f => f.1)) nm = some i :=
    nameIndex_getElem? hnd hnames
  have hfi : hdrFiles[i]? = some (nm, ct.length) := by
    rw [hhdr, List.getElem?_map, hi]; rfl
  have hci : contents[i]? = some ct := by
    rw [hcont, List.getElem?_map, hi]; rfl
  obtain ⟨hextract, hbound⟩ := flatten_drop_take contents i ct hci
  have hsum_eq : ((⟨hdrFiles, 0⟩ : Header).files.map (fun f => f.2)).take i =
      (contents.map List.length).take i := by
    rw [hhdr, hcont]
    simp [List.map_map, Function.comp_def]
  have hoff : (Header._offsets ⟨hdrFiles, 0⟩ (PRE_HEADER_SIZE + enc.length))[i]? =
      some (((contents.take i).map List.length).sum + (PRE_HEADER_SIZE + enc.length)) := by
    rw [offsets_getElem? _ _ (le_of_lt (by simpa [hhdr] using hiN))]
    rw [hsum_eq, List.map_take]
    simp
  set off := ((contents.take i).map List.length).sum + (PRE_HEADER_SIZE + enc.length)
    with hoffdef
  have hget : (⟨archive, ⟨hdrFiles, 0⟩,
      Header._offsets ⟨hdrFiles, 0⟩ (PRE_HEADER_SIZE + enc.length)⟩ : SarFile).getByName nm =
      some (TarItem.make nm ct.length ⟨archive, off⟩) := by
    unfold SarFile.getByName
    rw [hsnames, hni]
    dsimp only
    rw [hfi, hoff]
  refine ⟨TarItem.make nm ct.length ⟨archive, off⟩, hget, ?_⟩
  -- now evaluate the read
  have hA2 : archive = (MAGIC ++ (leBytes 8 enc.length ++ enc)) ++ contents.flatten := by
    rw [harch, hcont]; simp [List.append_assoc]
  have hplen : (MAGIC ++ (leBytes 8 enc.length ++ enc)).length =
      PRE_HEADER_SIZE + enc.length := by
    simp [MAGIC, PRE_HEADER_SIZE, leBytes_length]
    omega
  have harchlen : archive.length = PRE_HEADER_SIZE + enc.length + contents.flatten.length := by
    rw [hA2, List.length_append, hplen]
  have hdropoff : archive.drop off =
      contents.flatten.drop (((contents.take i).map List.length).sum) := by
    rw [hoffdef, Nat.add_comm, ← List.drop_drop, hA2, drop_append_length _ hplen]
  unfold TarItem.make TarItem.read TarItem.endPos FileHandle.read FileHandle.tell
  dsimp only
  rw [if_pos (by norm_num : (-1 : Int) < 0)]
  have harg : ((off + ct.length : Nat) : Int) - (off : Nat) = (ct.length : Int) := by
    push_cast; ring
  rw [harg]
  rw [if_neg (by omega : ¬ (ct.length : Int) < 0)]
  have htoNat : (ct.length : Int).toNat = ct.length := Int.toNat_natCast ct.length
  rw [htoNat]
  have hmin : min ct.length (archive.length - off) = ct.length := by
    rw [harchlen, hoffdef]
    omega
  rw [hmin, hdropoff, hextract]
  rfl

/-! ## Claim theorems -/

/-- Claim C5 (counterexample): the claim says a seek succeeds whenever the
computed absolute position lands in `[start, start + length]`.  For a member
view of length 3 starting at offset 2, `seek(3, from-start)` computes
position `2 + 3 = 5`, which lies in `[2, 5]`, yet the code rejects it
(`offset >= num_bytes`). -/
theorem claim_C5_counterexample :
    TarItem.seek ⟨[110], 3, 2, ⟨[0, 0, 0, 0, 0, 0, 0, 0, 0, 0], 2⟩⟩ 3 0 = none ∧
    ((2 : Int) ≤ 2 + 3 ∧ (2 + 3 : Int) ≤ 2 + 3) := by decide

/-- Claim C5 (amended): `TarItem.seek` follows its own per-branch guards,
not the claimed closed-interval rule, and failures raise (`none`) rather
than clamping.  From-start seeks succeed exactly when `0 ≤ offset < length`
(the end position itself is rejected) and land at `start + offset`.
From-current seeks succeed exactly when `offset ≥ 0` (every negative
relative offset is rejected, even with an in-range target) and
`current + offset < start + length`, landing at `current + offset`.
From-end seeks succeed exactly when `offset ≤ 0`, the *current* position
plus offset is at least `start` (the guard never looks at the computed
target), and the underlying end-relative position is non-negative — and
then land at `archive length + start + length + offset`, because the branch
forwards its already-absolute target to the underlying stream still
end-relative, generally far outside the member's range. -/
theorem claim_C5_seek_conditions (it : TarItem) (off : Int) :
    (it.seek off 0 =
      if 0 ≤ off ∧ off < (it.num_bytes : Int)
        then some ({ it with fp := ⟨it.fp.data, ((it.start : Int) + off).toNat⟩ },
          ((it.start : Int) + off).toNat)
        else none) ∧
    (it.seek off 1 =
      if 0 ≤ off ∧ (it.fp.pos : Int) + off < (it.endPos : Int)
        then some ({ it with fp := ⟨it.fp.data, ((it.fp.pos : Int) + off).toNat⟩ },
          ((it.fp.pos : Int) + off).toNat)
        else none) ∧
    (it.seek off 2 =
      if off ≤ 0 ∧ (it.start : Int) ≤ (it.fp.pos : Int) + off ∧
          0 ≤ (it.fp.data.length : Int) + ((it.start : Int) + (it.num_bytes : Int) + off)
        then some ({ it with fp := ⟨it.fp.data,
            ((it.fp.data.length : Int) + ((it.start : Int) + it.num_bytes + off)).toNat⟩ },
          ((it.fp.data.length : Int) + ((it.start : Int) + it.num_bytes + off)).toNat)
        else none) := by
  refine ⟨?_, ?_, ?_⟩
  · by_cases h1 : off < 0
    · have hc : ¬ (0 ≤ off ∧ off < (it.num_bytes : Int)) := by omega
      simp [TarItem.seek, FileHandle.tell, h1, hc]
    by_cases h2 : (it.num_bytes : Int) ≤ off
    · have hc : ¬ (0 ≤ off ∧ off < (it.num_bytes : Int)) := by omega
      simp [TarItem.seek, FileHandle.tell, h1, h2, hc]
    · have h3 : ¬ ((it.start : Int) + off < 0) := by omega
      have hc : 0 ≤ off ∧ off < (it.num_bytes : Int) := by omega
      simp [TarItem.seek, FileHandle.seek, FileHandle.tell, h1, h2, h3, hc]
  · by_cases h1 : off < 0
    · have hc : ¬ (0 ≤ off ∧ (it.fp.pos : Int) + off < (it.endPos : Int)) := by omega
      simp [TarItem.seek, FileHandle.tell, h1, hc]
    by_cases h2 : (it.endPos : Int) ≤ (it.fp.pos : Int) + off
    · have hc : ¬ (0 ≤ off ∧ (it.fp.pos : Int) + off < (it.endPos : Int)) := by omega
      simp [TarItem.seek, FileHandle.tell, h1, h2, hc]
    · have h3 : ¬ ((it.fp.pos : Int) + off < 0) := by omega
      have hc : 0 ≤ off ∧ (it.fp.pos : Int) + off < (it.endPos : Int) := by omega
      simp [TarItem.seek, FileHandle.seek, FileHandle.tell, h1, h2, h3, hc]
  · by_cases h1 : (0 : Int) < off
    · have hc : ¬ (off ≤ 0 ∧ (it.start : Int) ≤ (it.fp.pos : Int) + off ∧
          0 ≤ (it.fp.data.length : Int) + ((it.start : Int) + (it.num_bytes : Int) + off)) := by
        omega
      simp [TarItem.seek, FileHandle.tell, h1, hc]
    by_cases h2 : (it.fp.pos : Int) + off < (it.start : Int)
    · have hc : ¬ (off ≤ 0 ∧ (it.start : Int) ≤ (it.fp.pos : Int) + off ∧
          0 ≤ (it.fp.data.length : Int) + ((it.start : Int) + (it.num_bytes : Int) + off)) := by
        omega
      simp [TarItem.seek, FileHandle.tell, h1, h2, hc]
    · by_cases h3 : (it.fp.data.length : Int) + ((it.start : Int) + it.num_bytes + off) < 0
      · have hc : ¬ (off ≤ 0 ∧ (it.start : Int) ≤ (it.fp.pos : Int) + off ∧
            0 ≤ (it.fp.data.length : Int) + ((it.start : Int) + (it.num_bytes : Int) + off)) := by
          omega
        simp [TarItem.seek, FileHandle.seek, FileHandle.tell, h1, h2, h3, hc]
      · have hc : off ≤ 0 ∧ (it.start : Int) ≤ (it.fp.pos : Int) + off ∧
            0 ≤ (it.fp.data.length : Int) + ((it.start : Int) + (it.num_bytes : Int) + off) := by
          omega
        simp [TarItem.seek, FileHandle.seek, FileHandle.tell, h1, h2, h3, hc]

/-- Claim C6: on a member view over `[start, start + length)` (underlying
position inside the view, member fully inside the data), `read(n)` with `n`
negative returns exactly the remaining bytes up to `start + length`, taken
from the member's own byte range; `read(n)` with `n` at most the remaining
byte count returns exactly `n` bytes from the member's own byte range; and
`read(n)` with `n` greater than the remaining byte count fails (OutOfRange)
rather than clamping. -/
theorem claim_C6_read_policy (it : TarItem)
    (hsp : it.start ≤ it.fp.pos) (hpe : it.fp.pos ≤ it.endPos)
    (hed : it.endPos ≤ it.fp.data.length) :
    (∀ n : Int, n < 0 →
      it.read n = some ((it.fp.data.drop it.fp.pos).take (it.endPos - it.fp.pos),
        { it with fp := ⟨it.fp.data, it.endPos⟩ }) ∧
      ((it.fp.data.drop it.fp.pos).take (it.endPos - it.fp.pos)).length =
        it.endPos - it.fp.pos ∧
      (it.fp.data.drop it.fp.pos).take (it.endPos - it.fp.pos) =
        ((it.fp.data.drop it.start).take it.num_bytes).drop (it.fp.pos - it.start)) ∧
    (∀ n : Nat, it.fp.pos + n ≤ it.endPos →
      it.read (n : Int) = some ((it.fp.data.drop it.fp.pos).take n,
        { it with fp := ⟨it.fp.data, it.fp.pos + n⟩ }) ∧
      ((it.fp.data.drop it.fp.pos).take n).length = n ∧
      (it.fp.data.drop it.fp.pos).take n =
        (((it.fp.data.drop it.start).take it.num_bytes).drop (it.fp.pos - it.start)).take n) ∧
    (∀ n : Nat, it.endPos - it.fp.pos < n → it.read (n : Int) = none) := by
  have hE : it.endPos = it.start + it.num_bytes := rfl
  have hslice : ((it.fp.data.drop it.start).take it.num_bytes).drop (it.fp.pos - it.start) =
      (it.fp.data.drop it.fp.pos).take (it.num_bytes - (it.fp.pos - it.start)) := by
    rw [List.drop_take, List.drop_drop, Nat.add_sub_cancel' hsp]
  have hEnum : it.endPos - it.fp.pos = it.num_bytes - (it.fp.pos - it.start) := by omega
  refine ⟨?_, ?_, ?_⟩
  · intro n hn
    unfold TarItem.read FileHandle.read FileHandle.tell
    dsimp only
    rw [if_pos hn]
    rw [if_neg (by omega : ¬ ((it.endPos : Int) - (it.fp.pos : Nat) < 0))]
    rw [Int.toNat_sub it.endPos it.fp.pos]
    have hmin : min (it.endPos - it.fp.pos) (it.fp.data.length - it.fp.pos) =
        it.endPos - it.fp.pos := by omega
    rw [hmin]
    refine ⟨?_, ?_, ?_⟩
    · have hpos : it.fp.pos + (it.endPos - it.fp.pos) = it.endPos := by omega
      rw [hpos]
    · rw [List.length_take, List.length_drop]
      omega
    · rw [hEnum, hslice]
  · intro n hn
    unfold TarItem.read FileHandle.read FileHandle.tell
    dsimp only
    rw [if_neg (by omega : ¬ ((n : Int) < 0))]
    rw [if_neg (by omega : ¬ ((it.endPos : Int) < (it.fp.pos : Nat) + (n : Int)))]
    rw [if_neg (by omega : ¬ ((n : Int) < 0))]
    rw [Int.toNat_natCast n]
    have hmin : min n (it.fp.data.length - it.fp.pos) = n := by omega
    rw [hmin]
    refine ⟨rfl, ?_, ?_⟩
    · rw [List.length_take, List.length_drop]
      omega
    · rw [hslice, List.take_take, min_eq_left (by omega : n ≤ it.num_bytes - (it.fp.pos - it.start))]
  · intro n hn
    unfold TarItem.read FileHandle.tell
    dsimp only
    rw [if_neg (by omega : ¬ ((n : Int) < 0))]
    rw [if_pos (by omega : (it.endPos : Int) < (it.fp.pos : Nat) + (n : Int))]

/-- Claim C6 (witness): a view of length 3 at start 2 over ten bytes, with
the cursor at absolute position 3: `read(-1)` returns the 2 remaining bytes,
`read(2)` returns exactly 2 bytes, `read(3)` fails. -/
theorem claim_C6_witness :
    TarItem.read ⟨[110], 3, 2, ⟨[0, 1, 2, 3, 4, 5, 6, 7, 8, 9], 3⟩⟩ (-1) =
      some ([3, 4], ⟨[110], 3, 2, ⟨[0, 1, 2, 3, 4, 5, 6, 7, 8, 9], 5⟩⟩) ∧
    TarItem.read ⟨[110], 3, 2, ⟨[0, 1, 2, 3, 4, 5, 6, 7, 8, 9], 3⟩⟩ ((2 : Nat) : Int) =
      some ([3, 4], ⟨[110], 3, 2, ⟨[0, 1, 2, 3, 4, 5, 6, 7, 8, 9], 5⟩⟩) ∧
    TarItem.read ⟨[110], 3, 2, ⟨[0, 1, 2, 3, 4, 5, 6, 7, 8, 9], 3⟩⟩ ((3 : Nat) : Int) = none := by
  have h := claim_C6_read_policy ⟨[110], 3, 2, ⟨[0, 1, 2, 3, 4, 5, 6, 7, 8, 9], 3⟩⟩
    (by decide) (by decide) (by decide)
  exact ⟨(h.1 (-1) (by decide)).1, (h.2.1 2 (by decide)).1, h.2.2 3 (by decide)⟩

/-- Claim C1: for every non-empty ordered list `m` of (name, length) pairs —
names being arbitrary UTF-8 byte strings (so non-ASCII text is included) and
lengths anything below `2^64`, which exercises all four integer widths —
decoding the encoding returns the same list: the decoded header's `files`
equals `m`. -/
theorem claim_C1_roundtrip (m : List (List Nat × Nat)) (hne : m ≠ [])
    (hcount : m.length < 2 ^ 64)
    (hfit : ∀ f ∈ m, f.2 < 2 ^ 64 ∧ f.1.length < 2 ^ 64) :
    ∃ bytes h', Header.encode ⟨m, 0⟩ = .ok bytes ∧
      Header.decode bytes = .ok h' ∧ h'.files = m := by
  obtain ⟨bytes, hb⟩ := encode_isOk (h := ⟨m, 0⟩) hne hcount
    (fun f hf => (hfit f hf).1) (fun f hf => (hfit f hf).2)
  exact ⟨bytes, _, hb, decode_encode hb, rfl⟩

/-- Claim C1 (witness): four concrete round trips, one for each integer
width of the length column (1, 2, 4 and 8 bytes), the last two names
containing the non-ASCII UTF-8 bytes of "é". -/
theorem claim_C1_witness :
    (∃ bytes h', Header.encode ⟨[([104, 105], 7)], 0⟩ = .ok bytes ∧
      Header.decode bytes = .ok h' ∧ h'.files = [([104, 105], 7)]) ∧
    (∃ bytes h', Header.encode ⟨[([97], 300)], 0⟩ = .ok bytes ∧
      Header.decode bytes = .ok h' ∧ h'.files = [([97], 300)]) ∧
    (∃ bytes h', Header.encode ⟨[([195, 169], 70000)], 0⟩ = .ok bytes ∧
      Header.decode bytes = .ok h' ∧ h'.files = [([195, 169], 70000)]) ∧
    (∃ bytes h', Header.encode ⟨[([195, 169, 33], 9223372036854775808)], 0⟩ = .ok bytes ∧
      Header.decode bytes = .ok h' ∧
      h'.files = [([195, 169, 33], 9223372036854775808)]) :=
  ⟨claim_C1_roundtrip _ (by decide) (by decide) (by decide),
   claim_C1_roundtrip _ (by decide) (by decide) (by decide),
   claim_C1_roundtrip _ (by decide) (by decide) (by decide),
   claim_C1_roundtrip _ (by decide) (by decide) (by decide)⟩

/-- Claim C2: packing an ordered member list (with distinct names) and
reopening the resulting archive yields a handle whose length is the member
count, whose names list all the member names in order, and where reading
each member by name returns exactly the bytes originally supplied. -/
theorem claim_C2_pack_roundtrip (files : List (List Nat × List Nat))
    (archive : List Nat) (hnd : (files.map (fun f => f.1)).Nodup)
    (hp : packFiles files = .ok archive) :
    ∃ s : SarFile, SarFile.openSar archive = .ok s ∧
      s.size = files.length ∧
      s.names = files.map (fun f => f.1) ∧
      ∀ nm ct, (nm, ct) ∈ files →
        ∃ it : TarItem, s.getByName nm = some it ∧
          (it.read (-1)).map (fun r => r.1) = some ct :=
  pack_open_spec hnd hp

set_option maxRecDepth 100000 in
/-- Claim C2 (witness): the ten-file example — `file0.txt` … `file9.txt`
(as UTF-8 bytes) with contents "Hello from 0!" … "Hello from 9!" — packs
and reopens with all ten names and contents intact. -/
theorem claim_C2_witness :
    ∃ s : SarFile,
      SarFile.openSar ((packFiles ((List.range 10).map (fun i =>
          ([102, 105, 108, 101, 48 + i, 46, 116, 120, 116],
            [72, 101, 108, 108, 111, 32, 102, 114, 111, 109, 32, 48 + i, 33])))).toOption.getD
          []) = .ok s ∧
      s.size = ((List.range 10).map (fun i =>
          (([102, 105, 108, 101, 48 + i, 46, 116, 120, 116] : List Nat),
            ([72, 101, 108, 108, 111, 32, 102, 114, 111, 109, 32, 48 + i, 33] : List Nat)))).length ∧
      s.names = ((List.range 10).map (fun i =>
          (([102, 105, 108, 101, 48 + i, 46, 116, 120, 116] : List Nat),
            ([72, 101, 108, 108, 111, 32, 102, 114, 111, 109, 32, 48 + i, 33] : List Nat)))).map
          (fun f => f.1) ∧
      ∀ nm ct, (nm, ct) ∈ (List.range 10).map (fun i =>
          (([102, 105, 108, 101, 48 + i, 46, 116, 120, 116] : List Nat),
            ([72, 101, 108, 108, 111, 32, 102, 114, 111, 109, 32, 48 + i, 33] : List Nat))) →
        ∃ it : TarItem, s.getByName nm = some it ∧
          (it.read (-1)).map (fun r => r.1) = some ct :=
  claim_C2_pack_roundtrip _ _ (by decide) rfl

/-- Claim C3 (counterexample): the claim says the offsets list has exactly
one entry per member and, for lengths [5, 0, 12] and preamble-plus-header
size 30, equals [30, 35, 35].  The code's `itertools.accumulate(...,
initial=0)` yields one extra final entry: the computed list is
[30, 35, 35, 47]. -/
theorem claim_C3_counterexample :
    Header._offsets ⟨[([97], 5), ([98], 0), ([99], 12)], 0⟩ 30 = [30, 35, 35, 47] ∧
    [30, 35, 35, 47] ≠ [30, 35, 35] := by decide

/-- Claim C3 (amended): the offsets computation returns one entry per member
*plus one trailing entry*: entry `i`, for every `i` up to and including the
member count, equals `S + init_offset +` the sum of the lengths of the
members strictly before `i` (the last entry being the end of the data). -/
theorem claim_C3_offsets (h : Header) (S : Nat) :
    (h._offsets S).length = h.files.length + 1 ∧
    ∀ i, i ≤ h.files.length →
      (h._offsets S)[i]? = some (S + h.init_offset + ((h.files.map (fun f => f.2)).take i).sum) := by
  refine ⟨offsets_length h S, ?_⟩
  intro i hi
  rw [offsets_getElem? h S hi]
  congr 1
  ring

/-- Claim C3 (witness): the amended statement evaluated on the [5, 0, 12]
example with preamble-plus-header size 30. -/
theorem claim_C3_witness :
    (Header._offsets ⟨[([97], 5), ([98], 0), ([99], 12)], 0⟩ 30).length = 4 ∧
    (Header._offsets ⟨[([97], 5), ([98], 0), ([99], 12)], 0⟩ 30)[1]? = some 35 ∧
    (Header._offsets ⟨[([97], 5), ([98], 0), ([99], 12)], 0⟩ 30)[3]? = some 47 :=
  ⟨(claim_C3_offsets ⟨[([97], 5), ([98], 0), ([99], 12)], 0⟩ 30).1,
   (claim_C3_offsets ⟨[([97], 5), ([98], 0), ([99], 12)], 0⟩ 30).2 1 (by decide),
   (claim_C3_offsets ⟨[([97], 5), ([98], 0), ([99], 12)], 0⟩ 30).2 3 (by decide)⟩

/-- Claim C4: with `b = ceil(N / total_shards)`, shard `i` covers exactly
the contiguous member range `[i*b, min((i+1)*b, N))` (member for member),
is empty without error when `i*b ≥ N`, the concatenation of all shards'
member lists in shard-id order restores the original member list, and the
offsets computed from a shard alone agree with the offsets computed from the
unsharded header for every member the shard contains. -/
theorem claim_C4_shard (h : Header) (t : Nat) (ht : 1 ≤ t) :
    (∀ i j, j < (h.shard i t).files.length →
      (h.shard i t).files[j]? = h.files[i * ((h.files.length + t - 1) / t) + j]?) ∧
    (∀ i, (h.shard i t).files.length =
      min ((i + 1) * ((h.files.length + t - 1) / t)) h.files.length
        - i * ((h.files.length + t - 1) / t)) ∧
    (∀ i, h.files.length ≤ i * ((h.files.length + t - 1) / t) →
      (h.shard i t).files = []) ∧
    ((List.range t).map (fun i => (h.shard i t).files)).flatten = h.files ∧
    (∀ S i j, j < (h.shard i t).files.length →
      ((h.shard i t)._offsets S)[j]? =
        (h._offsets S)[i * ((h.files.length + t - 1) / t) + j]?) := by
  refine ⟨?_, ?_, ?_, shard_cover h ht, ?_⟩
  · intro i j hj
    exact shard_files_getElem? h hj
  · intro i
    exact shard_files_length h i t
  · intro i hi
    rw [shard_files_eq, List.drop_eq_nil_of_le hi, List.take_nil]
  · intro S i j hj
    exact shard_offsets_agree h S i t hj

/-- Claim C4 (witness): the 7-member, 3-shard example: shard sizes 3, 3, 1;
shard 2's first member is member 6; an over-large shard id gives an empty
list; the shards concatenate to the original list; and shard 2's offsets
match the full header's offsets at member 6. -/
theorem claim_C4_witness :
    ((⟨[([100], 1), ([101], 2), ([102], 3), ([103], 4), ([104], 5), ([105], 6),
        ([106], 7)], 0⟩ : Header).shard 2 3).files[0]? =
      (⟨[([100], 1), ([101], 2), ([102], 3), ([103], 4), ([104], 5), ([105], 6),
        ([106], 7)], 0⟩ : Header).files[6]? ∧
    ((⟨[([100], 1), ([101], 2), ([102], 3), ([103], 4), ([104], 5), ([105], 6),
        ([106], 7)], 0⟩ : Header).shard 2 3).files.length = 1 ∧
    ((⟨[([100], 1), ([101], 2), ([102], 3), ([103], 4), ([104], 5), ([105], 6),
        ([106], 7)], 0⟩ : Header).shard 5 3).files = [] ∧
    ((List.range 3).map (fun i =>
      ((⟨[([100], 1), ([101], 2), ([102], 3), ([103], 4), ([104], 5), ([105], 6),
        ([106], 7)], 0⟩ : Header).shard i 3).files)).flatten =
      (⟨[([100], 1), ([101], 2), ([102], 3), ([103], 4), ([104], 5), ([105], 6),
        ([106], 7)], 0⟩ : Header).files ∧
    (((⟨[([100], 1), ([101], 2), ([102], 3), ([103], 4), ([104], 5), ([105], 6),
        ([106], 7)], 0⟩ : Header).shard 2 3)._offsets 10)[0]? =
      ((⟨[([100], 1), ([101], 2), ([102], 3), ([103], 4), ([104], 5), ([105], 6),
        ([106], 7)], 0⟩ : Header)._offsets 10)[6]? :=
  ⟨(claim_C4_shard _ 3 (by decide)).1 2 0 (by decide),
   (claim_C4_shard _ 3 (by decide)).2.1 2,
   (claim_C4_shard _ 3 (by decide)).2.2.1 5 (by decide),
   (claim_C4_shard _ 3 (by decide)).2.2.2.1,
   (claim_C4_shard _ 3 (by decide)).2.2.2.2 10 2 0 (by decide)⟩

/-- Claim C8: `Header.decode` fails whenever a width-selector byte is not
one of {1, 2, 4, 8}, fails whenever trailing bytes remain unconsumed after
extracting all names, and succeeds — consuming the bytes exactly — on every
well-formed input (i.e. on every byte string the encoder produces). -/
theorem claim_C8_decode_validation :
    (∀ w1 w2 : Nat, ∀ rest : List Nat,
      (¬ (w1 = 1 ∨ w1 = 2 ∨ w1 = 4 ∨ w1 = 8)) ∨ (¬ (w2 = 1 ∨ w2 = 2 ∨ w2 = 4 ∨ w2 = 8)) →
      ∃ e, Header.decode (w1 :: w2 :: rest) = .error e) ∧
    (∀ (h : Header) (bytes extra : List Nat), h.encode = .ok bytes → extra ≠ [] →
      ∃ e, Header.decode (bytes ++ extra) = .error e) ∧
    (∀ (h : Header) (bytes : List Nat), h.encode = .ok bytes →
      Header.decode bytes = .ok ⟨h.files, 0⟩) := by
  have hinv : ∀ w : Nat, ¬ (w = 1 ∨ w = 2 ∨ w = 4 ∨ w = 8) →
      get_dtype_from_int w = .error "Invalid dtype int" := by
    intro w hw
    push_neg at hw
    unfold get_dtype_from_int
    rw [if_neg hw.1, if_neg hw.2.1, if_neg hw.2.2.1, if_neg hw.2.2.2]
  refine ⟨?_, ?_, ?_⟩
  · intro w1 w2 rest hbad
    rw [Header.decode]
    rcases hbad with h1 | h2
    · rw [hinv w1 h1]
      exact ⟨_, rfl⟩
    · rcases hd1 : get_dtype_from_int w1 with e | d1
      · exact ⟨_, rfl⟩
      · rw [hinv w2 h2]
        exact ⟨_, rfl⟩
  · intro h bytes extra he hex
    refine ⟨"Bytes left over", ?_⟩
    rw [decode_encode_general he extra, if_neg (by simpa [List.isEmpty_iff] using hex)]
  · intro h bytes he
    exact decode_encode he

/-- Claim C8 (witness): decoding `[3, 1]` (bad width byte 3) fails; decoding
a valid encoding with one trailing byte fails; decoding the same valid
encoding exactly succeeds. -/
theorem claim_C8_witness :
    (∃ e, Header.decode (3 :: 1 :: []) = .error e) ∧
    (∃ e, Header.decode ([1, 1, 1, 0, 0, 0, 0, 0, 0, 0, 5, 1, 97] ++ [7]) = .error e) ∧
    Header.decode [1, 1, 1, 0, 0, 0, 0, 0, 0, 0, 5, 1, 97] =
      .ok ⟨[([97], 5)], 0⟩ :=
  ⟨claim_C8_decode_validation.1 3 1 [] (Or.inl (by decide)),
   claim_C8_decode_validation.2.1 ⟨[([97], 5)], 0⟩ _ [7] rfl (by decide),
   claim_C8_decode_validation.2.2 ⟨[([97], 5)], 0⟩ _ rfl⟩

/-- Claim C9 (counterexample): packing a tar archive whose qualifying member
list is empty does *not* leave the output untouched: the output file is
created and the 4 magic bytes are written before the header encoder raises
(`max()` of an empty sequence). -/
theorem claim_C9_counterexample :
    packTarRun [] = (true, MAGIC, some "max() arg is an empty sequence") ∧
    MAGIC ≠ [] := by decide

/-- Claim C9 (amended): packing from a file list (or a directory — both
merge into the same `files_with_sizes` check) with an empty qualifying
member list fails with "No files to pack." before the output file is even
opened, so nothing is written; packing from a tar with an empty qualifying
member list also fails, but only after the output file has been created and
the 4 magic bytes written, and the failure is the header encoder's
empty-`max()` error rather than the empty-archive check. -/
theorem claim_C9_empty_pack :
    packFilesRun [] = (false, [], some "No files to pack.") ∧
    (∀ members : List (List Nat × List Nat),
      members.filter (fun m => 0 < m.2.length) = [] →
      packTarRun members = (true, MAGIC, some "max() arg is an empty sequence")) := by
  refine ⟨rfl, ?_⟩
  intro members hfil
  unfold packTarRun
  have hfs : (members.map (fun m => (m.1, m.2.length))).filter (fun i => 0 < i.2) = [] := by
    rw [List.filter_map]
    simp only [Function.comp_def]
    rw [show (fun m : List Nat × List Nat => decide (0 < (m.1, m.2.length).2)) =
      (fun m : List Nat × List Nat => decide (0 < m.2.length)) from rfl]
    rw [hfil]
    rfl
  rw [hfs]
  rfl

/-- Claim C9 (witness): a tar whose only member has zero-length content
qualifies no members, and the failing pack has already written the magic. -/
theorem claim_C9_witness :
    packFilesRun [] = (false, [], some "No files to pack.") ∧
    packTarRun [([97], [])] = (true, MAGIC, some "max() arg is an empty sequence") :=
  ⟨claim_C9_empty_pack.1, claim_C9_empty_pack.2 [([97], [])] (by decide)⟩

/-- Claim C10: every successful `Header.decode` returns a header with
`init_offset = 0`; consequently encoding a header whose `init_offset` is
non-zero (such as a shard) and decoding the result restores only the member
list, not the `init_offset`. -/
theorem claim_C10_init_offset :
    (∀ (b : List Nat) (hh : Header), Header.decode b = .ok hh → hh.init_offset = 0) ∧
    (∀ (h : Header) (bytes : List Nat), h.init_offset ≠ 0 → h.encode = .ok bytes →
      Header.decode bytes = .ok ⟨h.files, 0⟩) := by
  constructor
  · intro b hh hd
    rcases b with _ | ⟨w1, b1⟩
    · exact absurd hd (by simp [Header.decode])
    rcases b1 with _ | ⟨w2, rest⟩
    · exact absurd hd (by simp [Header.decode])
    rw [Header.decode] at hd
    rcases h1 : get_dtype_from_int w1 with e | d1
    · rw [h1] at hd
      exact absurd hd (by simp)
    rw [h1] at hd
    rcases h2 : get_dtype_from_int w2 with e | d2
    · rw [h2] at hd
      exact absurd hd (by simp)
    rw [h2] at hd
    dsimp only at hd
    split at hd
    · exact absurd hd (by simp)
    split at hd
    · exact absurd hd (by simp)
    split at hd
    · exact absurd hd (by simp)
    split at hd
    · rw [← Except.ok.inj hd]
    · exact absurd hd (by simp)
  · intro h bytes hinit he
    exact decode_encode he

/-- Claim C10 (witness): the shard-like header `⟨[([98], 7)], 5⟩` has a
non-zero `init_offset`; its encoding decodes to the same member list with
`init_offset` reset to 0. -/
theorem claim_C10_witness :
    Header.decode [1, 1, 1, 0, 0, 0, 0, 0, 0, 0, 7, 1, 98] = .ok ⟨[([98], 7)], 0⟩ ∧
    (⟨[([98], 7)], 0⟩ : Header).init_offset = 0 ∧ (5 : Nat) ≠ 0 := by
  have h2 := claim_C10_init_offset.2 ⟨[([98], 7)], 5⟩
    [1, 1, 1, 0, 0, 0, 0, 0, 0, 0, 7, 1, 98] (by decide) rfl
  exact ⟨h2, claim_C10_init_offset.1 _ _ h2, by decide⟩

/-- Claim C7 (code bug): the claim says member-local `tell()` always lies in
`[0, L]` after any sequence of the view's own operations.  But the
`whence = 2` branch of `TarItem.seek` computes the absolute target
`start + num_bytes + offset` and then forwards it to the underlying stream
still with `whence = 2`, so the underlying stream adds it to the length of
the whole archive.  For a length-5 member at start 12 of a 20-byte archive,
`seek(0, from-end)` lands at absolute position `20 + 12 + 5 = 37`, and
`tell()` then returns `37 - 12 = 25 ∉ [0, 5]`. -/
theorem claim_C7_tell_bug :
    (TarItem.seek ⟨[110], 5, 12, ⟨List.replicate 20 7, 12⟩⟩ 0 2).map
      (fun r => (r.1.tell, r.2)) = some (25, 37) ∧
    ¬ ((0 : Int) ≤ 25 ∧ (25 : Int) ≤ 5) := by decide

end Sarfile
